import Mathlib

/-!
# Verification of the wg-grammar tester harness

Shallow embedding of `src/bin/tester.rs`: the SPPF ambiguity check
(`ambiguity_check`), the per-file classification and counters of the
directory mode, the compact progress output, the single-file mode, the
`parse_file_with` front-end, and the `.rs`-extension filter.

The parsing engine (the `gll` runtime and the generated `rust_grammar`
crate) is external to the repository; the spec treats it as a black box
exposing a node-shape taxonomy and forest-query primitives
(`one_choice`, `one_split`, `unpack_alias`, `unpack_opt`).  We model a
forest over a finite node type `Fin n` by those primitives' underlying
data: the lists of alternatives of a `Choice` node and of pairings of a
`Split` node, the single child of an `Alias` node and the optional child
of an `Opt` node.
-/

/-- `ParseNodeKind` labels carried by shapes; the tester never inspects
them (every payload position in its `match` is a wildcard), so an opaque
`Nat` label suffices. -/
abbrev NodeKind := Nat

/-- `gll::runtime::ParseNodeShape`: the shape taxonomy of forest nodes. -/
inductive ParseNodeShape where
  | Opaque : ParseNodeShape
  | Alias : NodeKind → ParseNodeShape
  | Opt : NodeKind → ParseNodeShape
  | Choice : ParseNodeShape
  | Split : NodeKind → NodeKind → ParseNodeShape
deriving DecidableEq

/-- Whether a shape is a `Split`-shape (payloads irrelevant). -/
def ParseNodeShape.isSplit : ParseNodeShape → Bool
  | .Split _ _ => true
  | _ => false

/-- `gll::runtime::MoreThanOne`, the ambiguity signal (a unit struct). -/
inductive MoreThanOne where
  | mk : MoreThanOne
deriving DecidableEq

/-- A shared packed parse forest over nodes `Fin n`.  `choices x` lists the
alternatives stored for a `Choice` node `x`, `splits x` the `(left, right)`
pairings stored for a `Split` node `x`; `aliasChild` and `optChild` are the
data behind `unpack_alias` and `unpack_opt`.  Fields at nodes of another
shape are never consulted. -/
structure Forest (n : Nat) where
  shape : Fin n → ParseNodeShape
  choices : Fin n → List (Fin n)
  splits : Fin n → List (Fin n × Fin n)
  aliasChild : Fin n → Fin n
  optChild : Fin n → Option (Fin n)

/-- The engine's `one_choice` query (spec §6 `unique_alternative`): the
unique alternative of a `Choice` node, failing with `MoreThanOne` when
the node stores more than one.  A `Choice` node of a well-formed forest
has one or more alternatives (spec §3); the impossible empty case is
mapped to the failure arbitrarily. -/
def Forest.one_choice (f : Forest n) (x : Fin n) : Except MoreThanOne (Fin n) :=
  match f.choices x with
  | [c] => .ok c
  | _ => .error .mk

/-- The engine's `one_split` query (spec §6 `unique_split`): the unique
`(left, right)` pairing of a `Split` node, failing with `MoreThanOne`
when more than one pairing exists; the empty case is impossible on a
well-formed forest and mapped to the failure arbitrarily. -/
def Forest.one_split (f : Forest n) (x : Fin n) :
    Except MoreThanOne (Fin n × Fin n) :=
  match f.splits x with
  | [p] => .ok p
  | _ => .error .mk

/-- The body of the `match source.kind.shape()` in `ambiguity_check`
(tester.rs:94-107): the children to enqueue for a dequeued node, or the
ambiguity failure propagated from `one_choice` / `one_split` by `?`. -/
def stepChildren (f : Forest n) (source : Fin n) :
    Except MoreThanOne (List (Fin n)) :=
  match f.shape source with
  | .Opaque => .ok []
  | .Alias _ => .ok [f.aliasChild source]
  | .Opt _ =>
    match f.optChild source with
    | some child => .ok [child]
    | none => .ok []
  | .Choice =>
    match f.one_choice source with
    | .ok c => .ok [c]
    | .error e => .error e
  | .Split _ _ =>
    match f.one_split source with
    | .ok (l, r) => .ok [l, r]
    | .error e => .error e

/-- The `add_children` closure (tester.rs:87-93): push each child that the
visited set did not already contain onto the back of the queue, recording
it as seen. -/
def add_children (children : List (Fin n)) (queue : List (Fin n))
    (seen : Finset (Fin n)) : List (Fin n) × Finset (Fin n) :=
  match children with
  | [] => (queue, seen)
  | c :: cs =>
    if c ∈ seen then add_children cs queue seen
    else add_children cs (queue ++ [c]) (insert c seen)

theorem add_children_card (children : List (Fin n)) (queue : List (Fin n))
    (seen : Finset (Fin n)) :
    (add_children children queue seen).2.card + queue.length
      = seen.card + (add_children children queue seen).1.length := by
  induction children generalizing queue seen with
  | nil => simp [add_children]
  | cons c cs ih =>
    by_cases h : c ∈ seen
    · simp only [add_children, if_pos h]
      exact ih queue seen
    · simp only [add_children, if_neg h]
      have := ih (queue ++ [c]) (insert c seen)
      simp only [List.length_append, List.length_cons, List.length_nil,
        Finset.card_insert_of_not_mem h] at this ⊢
      omega

/-- The queue loop of `ambiguity_check` (tester.rs:86-108), instrumented
with the number of nodes dequeued.  The measure decreases because every
enqueue also grows the visited set, which `Fin n` bounds. -/
def check_loop (f : Forest n) (queue : List (Fin n)) (seen : Finset (Fin n)) :
    Except MoreThanOne Unit × Nat :=
  match queue with
  | [] => (.ok (), 0)
  | source :: rest =>
    match stepChildren f source with
    | .error e => (.error e, 1)
    | .ok children =>
      have hcard : (add_children children rest seen).2.card + rest.length
          = seen.card + (add_children children rest seen).1.length :=
        add_children_card children rest seen
      have hle : (add_children children rest seen).2.card ≤ n := by
        simpa using Finset.card_le_card
          (Finset.subset_univ (add_children children rest seen).2)
      let rk := check_loop f (add_children children rest seen).1
        (add_children children rest seen).2
      (rk.1, rk.2 + 1)
termination_by (n - seen.card) + queue.length
decreasing_by
  simp only [List.length_cons]
  omega

/-- `ambiguity_check` (tester.rs:79-111): breadth-first traversal from the
root, with the root pre-seeded into queue and visited set. -/
def ambiguity_check (f : Forest n) (root : Fin n) : Except MoreThanOne Unit :=
  (check_loop f [root] {root}).1

/-- The number of nodes `ambiguity_check` dequeues and inspects. -/
def ambiguity_steps (f : Forest n) (root : Fin n) : Nat :=
  (check_loop f [root] {root}).2

/-! ## The spec's reachability and ambiguity notions (spec §3) -/

/-- The shape-defined children of a node, as the spec words them: the
`Alias` child, a present `Opt` child, the unique `Choice` alternative,
and both halves of a unique `Split`.  An ambiguous `Choice` or `Split`
node defines no unique child, so nothing lies beyond it. -/
def edgeChildren (f : Forest n) (x : Fin n) : List (Fin n) :=
  match f.shape x with
  | .Opaque => []
  | .Alias _ => [f.aliasChild x]
  | .Opt _ => (f.optChild x).toList
  | .Choice =>
    match f.choices x with
    | [c] => [c]
    | _ => []
  | .Split _ _ =>
    match f.splits x with
    | [(l, r)] => [l, r]
    | _ => []

/-- `y` is a shape-defined child of `x`. -/
def Edge (f : Forest n) (x y : Fin n) : Prop :=
  y ∈ edgeChildren f x

instance (f : Forest n) (x y : Fin n) : Decidable (Edge f x y) := by
  unfold Edge; infer_instance

/-- `y` is transitively reachable from `x` through shape-defined children
(reflexive: the root itself counts). -/
def Reach (f : Forest n) (x y : Fin n) : Prop :=
  Relation.ReflTransGen (Edge f) x y

/-- The spec's local ambiguity: a `Choice` node with more than one
alternative, or a `Split` node with more than one split. -/
def LocallyAmbiguous (f : Forest n) (x : Fin n) : Prop :=
  (f.shape x = .Choice ∧ 1 < (f.choices x).length) ∨
    ((f.shape x).isSplit = true ∧ 1 < (f.splits x).length)

instance (f : Forest n) (x : Fin n) : Decidable (LocallyAmbiguous f x) := by
  unfold LocallyAmbiguous; infer_instance

/-- Well-formedness of a forest produced by a successful parse (spec §3:
`Choice` has "one or more alternative children", a `Split` has at least
one pairing). -/
def WellFormed (f : Forest n) : Prop :=
  (∀ x, f.shape x = .Choice → f.choices x ≠ []) ∧
    (∀ x, (f.shape x).isSplit = true → f.splits x ≠ [])

instance (f : Forest n) : Decidable (WellFormed f) := by
  unfold WellFormed; infer_instance

/-! ## The batch harness (tester.rs `main`) -/

/-- A successful-parse handle: the forest together with the root node
(`handle.parser.sppf` and `handle.node`). -/
structure Handle where
  size : Nat
  forest : Forest size
  root : Fin size

/-- `ParseResult` as `parse_file_with` hands it to its continuation:
`Ok(handle)`, `Err(ParseError::TooShort(handle))` or
`Err(ParseError::NoParse)`. -/
inductive ParseResult where
  | ok : Handle → ParseResult
  | tooShort : Handle → ParseResult
  | noParse : ParseResult

/-- The five counters of directory mode (tester.rs:138-142). -/
structure Counters where
  total : Nat
  unambiguous : Nat
  ambiguous : Nat
  too_short : Nat
  no_parse : Nat
deriving DecidableEq

/-- All counters start at zero. -/
def initCounters : Counters :=
  { total := 0, unambiguous := 0, ambiguous := 0, too_short := 0
    no_parse := 0 }

/-- One iteration of the directory-mode loop body without the printing
(tester.rs:156-168): choose the status character and the counter from the
parse result, increment that counter and the running total. -/
def processFile (c : Counters) (r : ParseResult) : Counters × Char :=
  match r with
  | .ok h =>
    match ambiguity_check h.forest h.root with
    | .ok _ =>
      ({ c with unambiguous := c.unambiguous + 1, total := c.total + 1 }, '~')
    | .error _ =>
      ({ c with ambiguous := c.ambiguous + 1, total := c.total + 1 }, '!')
  | .tooShort _ =>
    ({ c with too_short := c.too_short + 1, total := c.total + 1 }, '.')
  | .noParse =>
    ({ c with no_parse := c.no_parse + 1, total := c.total + 1 }, 'X')

/-- The directory-mode loop (tester.rs:152-182): process each file in
order, and in non-verbose mode emit a newline whenever the running total
after the increment is a multiple of 80, then the status character.
Verbose mode reports to stderr instead and emits nothing on stdout. -/
def runDir (verbose : Bool) (c : Counters) :
    List ParseResult → Counters × List Char
  | [] => (c, [])
  | r :: rs =>
    let pc := processFile c r
    let tail := runDir verbose pc.1 rs
    (tail.1,
      (if verbose then []
       else (if pc.1.total % 80 == 0 then ['\n'] else []) ++ [pc.2])
        ++ tail.2)

/-- The lengths of the lines of the compact progress stream: the chunks
between newline characters. -/
def lineLengths (out : List Char) : List Nat :=
  (out.splitOn '\n').map List.length

/-! ## `parse_file_with` (tester.rs:60-67) -/

/-- `proc_macro2::LexError`, the tokenization failure; its payload is
discarded by the harness (`Err(_)`). -/
inductive LexError where
  | mk : LexError

/-- `parse_file_with` after the file read: `src.parse::<TokenStream>()`
either yields a token stream `tts`, handed to the engine's entry rule
whose result goes to the continuation `f`, or fails, in which case `f`
receives exactly `Err(ParseError::NoParse)`.  The token-stream type `T`
and the engine's `ModuleContents::parse_with` are abstract. -/
def parse_file_with {T R : Type} (tokenized : Except LexError T)
    (parseWith : T → ParseResult) (f : ParseResult → R) : R :=
  match tokenized with
  | .ok tts => f (parseWith tts)
  | .error _ => f .noParse

/-! ## The `.rs` extension filter (tester.rs:144-149) -/

/-- The characters after the last `'.'` of a file name's tail, if any. -/
def afterLastDot : List Char → Option (List Char)
  | [] => none
  | c :: cs =>
    match afterLastDot cs with
    | some e => some e
    | none => if c = '.' then some cs else none

/-- `std::path::Path::extension` on a file name: `none` when there is no
embedded `'.'`, or when the name begins with `'.'` and has no other
`'.'`; otherwise the portion after the final `'.'`. -/
def extension (name : String) : Option String :=
  match name.toList with
  | [] => none
  | c :: rest =>
    if c = '.' then (afterLastDot rest).map List.asString
    else (afterLastDot (c :: rest)).map List.asString

/-- The walk filter (tester.rs:149):
`entry.path().extension().map_or(false, |ext| ext == "rs")`, applied to
the entry's file name (the path's final component, which alone determines
the extension). -/
def keepEntry (name : String) : Bool :=
  match extension name with
  | some ext => ext == "rs"
  | none => false

/-! ## Observable per-file events, for comparing the two modes -/

/-- The observable steps of processing one file: reading and parsing it,
running the ambiguity classifier, dumping the forest visualization,
reporting the full structured result, and emitting one status character. -/
inductive Event where
  | readAndParse : Event
  | ambiguityClassify : Event
  | dumpForest : Event
  | reportDetail : Event
  | emitStatus : Char → Event
deriving DecidableEq

/-- Whether a parse result carries a forest handle, i.e. matches the
`Ok(handle) | Err(ParseError::TooShort(handle))` pattern of the `File`
arm (tester.rs:122). -/
def hasForest : ParseResult → Bool
  | .ok _ => true
  | .tooShort _ => true
  | .noParse => false

/-- Single-file mode (tester.rs:115-135): parse, dump the forest when an
output path was given and the result carries a handle, then report the
full result.  No other step occurs. -/
def fileModeTrace (dump : Bool) (r : ParseResult) : List Event :=
  Event.readAndParse ::
    ((if hasForest r && dump then [Event.dumpForest] else []) ++
      [Event.reportDetail])

/-- Directory mode, one file (tester.rs:152-181): parse, run the
ambiguity classifier on a full success, then either report the full
result (verbose) or emit the status character. -/
def dirFileTrace (verbose : Bool) (c : Counters) (r : ParseResult) :
    List Event :=
  Event.readAndParse ::
    ((match r with
      | .ok _ => [Event.ambiguityClassify]
      | _ => []) ++
      (if verbose then [Event.reportDetail]
       else [Event.emitStatus (processFile c r).2]))

/-- Modelled from the spec: spec §4.2 "Single-file mode: identical
per-file procedure but for exactly one path, always printing full
diagnostic detail", with the per-file procedure of §4.2 step 4 running
the Ambiguity Classifier on every fully successful parse, and the
optional forest dump for outcomes that have a forest. -/
def specSingleFileTrace (dump : Bool) (r : ParseResult) : List Event :=
  Event.readAndParse ::
    ((match r with
      | .ok _ => [Event.ambiguityClassify]
      | _ => []) ++
      (if hasForest r && dump then [Event.dumpForest] else []) ++
      [Event.reportDetail])

/-! ## Concrete forests used as test inputs -/

/-- A chain of `m + 1` `Alias` nodes `0 → 1 → ⋯ → m` followed by a
`Choice` node `m + 1` holding two alternatives: the ambiguity sits behind
arbitrarily many unambiguous nodes. -/
def chainForest (m : Nat) : Forest (m + 2) :=
  { shape := fun x => if x.val < m + 1 then .Alias 0 else .Choice
    choices := fun _ => [⟨0, by omega⟩, ⟨0, by omega⟩]
    splits := fun _ => []
    aliasChild := fun x => ⟨min (x.val + 1) (m + 1), by omega⟩
    optChild := fun _ => none }

/-- A two-node forest: an `Alias` root pointing at an `Opaque` leaf;
unambiguous. -/
def aliasLeafForest : Forest 2 :=
  { shape := fun x => if x = 0 then .Alias 0 else .Opaque
    choices := fun _ => []
    splits := fun _ => []
    aliasChild := fun _ => 1
    optChild := fun _ => none }

/-- A one-node forest whose only node is an ambiguous `Split` with two
pairings. -/
def splitAmbForest : Forest 1 :=
  { shape := fun _ => .Split 0 0
    choices := fun _ => []
    splits := fun _ => [(0, 0), (0, 0)]
    aliasChild := fun x => x
    optChild := fun _ => none }

/-! ## Properties of `add_children` -/

theorem add_children_queue_mono {children queue : List (Fin n)}
    {seen : Finset (Fin n)} :
    ∀ x ∈ queue, x ∈ (add_children children queue seen).1 := by
  induction children generalizing queue seen with
  | nil => simp [add_children]
  | cons c cs ih =>
    intro x hx
    by_cases h : c ∈ seen
    · simpa [add_children, h] using ih x hx
    · simp only [add_children, if_neg h]
      exact ih x (by simp [hx])

theorem add_children_seen_mono {children queue : List (Fin n)}
    {seen : Finset (Fin n)} :
    seen ⊆ (add_children children queue seen).2 := by
  induction children generalizing queue seen with
  | nil => simp [add_children]
  | cons c cs ih =>
    by_cases h : c ∈ seen
    · simpa [add_children, h] using ih
    · simp only [add_children, if_neg h]
      exact fun x hx => ih (Finset.mem_insert_of_mem hx)

theorem add_children_children_seen {children queue : List (Fin n)}
    {seen : Finset (Fin n)} :
    ∀ c ∈ children, c ∈ (add_children children queue seen).2 := by
  induction children generalizing queue seen with
  | nil => simp
  | cons c cs ih =>
    intro x hx
    rcases List.mem_cons.mp hx with rfl | hx
    · by_cases h : x ∈ seen
      · simpa [add_children, h] using add_children_seen_mono h
      · simp only [add_children, if_neg h]
        exact add_children_seen_mono (Finset.mem_insert_self x seen)
    · by_cases h : c ∈ seen
      · simpa [add_children, h] using ih x hx
      · simp only [add_children, if_neg h]
        exact ih x hx

theorem add_children_queue_sub {children queue : List (Fin n)}
    {seen : Finset (Fin n)} :
    ∀ x ∈ (add_children children queue seen).1, x ∈ queue ∨ x ∈ children := by
  induction children generalizing queue seen with
  | nil => simp [add_children]
  | cons c cs ih =>
    intro x hx
    by_cases h : c ∈ seen
    · simp only [add_children, if_pos h] at hx
      rcases ih x hx with h' | h' <;> simp [h']
    · simp only [add_children, if_neg h] at hx
      rcases ih x hx with h' | h'
      · rcases List.mem_append.mp h' with h'' | h''
        · simp [h'']
        · simp [List.mem_singleton.mp h'']
      · simp [h']

theorem add_children_seen_sub {children queue : List (Fin n)}
    {seen : Finset (Fin n)} :
    ∀ x ∈ (add_children children queue seen).2, x ∈ seen ∨ x ∈ children := by
  induction children generalizing queue seen with
  | nil => simp [add_children]
  | cons c cs ih =>
    intro x hx
    by_cases h : c ∈ seen
    · simp only [add_children, if_pos h] at hx
      rcases ih x hx with h' | h' <;> simp [h']
    · simp only [add_children, if_neg h] at hx
      rcases ih x hx with h' | h'
      · rcases Finset.mem_insert.mp h' with rfl | h''
        · simp
        · simp [h'']
      · simp [h']

theorem add_children_enqueued_or_seen {children queue : List (Fin n)}
    {seen : Finset (Fin n)} :
    ∀ c ∈ children, c ∈ (add_children children queue seen).1 ∨ c ∈ seen := by
  induction children generalizing queue seen with
  | nil => simp
  | cons c cs ih =>
    intro x hx
    rcases List.mem_cons.mp hx with rfl | hx
    · by_cases h : x ∈ seen
      · exact Or.inr h
      · simp only [add_children, if_neg h]
        exact Or.inl (add_children_queue_mono x (by simp))
    · by_cases h : c ∈ seen
      · simpa [add_children, h] using ih x hx
      · simp only [add_children, if_neg h]
        rcases ih x hx with h' | h'
        · exact Or.inl h'
        · rcases Finset.mem_insert.mp h' with rfl | h''
          · exact Or.inl (add_children_queue_mono x (by simp))
          · exact Or.inr h''

/-! ## Characterizing `stepChildren` -/

theorem stepChildren_ok {f : Forest n} {x : Fin n} {cs : List (Fin n)}
    (h : stepChildren f x = .ok cs) :
    cs = edgeChildren f x ∧ ¬ LocallyAmbiguous f x := by
  unfold stepChildren at h
  cases hs : f.shape x <;> rw [hs] at h
  case Opaque =>
    refine ⟨by simp_all [edgeChildren], ?_⟩
    simp [LocallyAmbiguous, hs, ParseNodeShape.isSplit]
  case Alias k =>
    refine ⟨by simp_all [edgeChildren], ?_⟩
    simp [LocallyAmbiguous, hs, ParseNodeShape.isSplit]
  case Opt k =>
    constructor
    · cases ho : f.optChild x <;> rw [ho] at h <;>
        simp_all [edgeChildren, Option.toList]
    · simp [LocallyAmbiguous, hs, ParseNodeShape.isSplit]
  case Choice =>
    unfold Forest.one_choice at h
    cases hc : f.choices x with
    | nil => rw [hc] at h; simp at h
    | cons a l =>
      cases l with
      | nil =>
        rw [hc] at h
        simp only [Except.ok.injEq] at h
        refine ⟨by rw [← h]; simp [edgeChildren, hs, hc], ?_⟩
        simp [LocallyAmbiguous, hs, hc, ParseNodeShape.isSplit]
      | cons b l' => rw [hc] at h; simp at h
  case Split k₁ k₂ =>
    unfold Forest.one_split at h
    cases hc : f.splits x with
    | nil => rw [hc] at h; simp at h
    | cons a l =>
      cases l with
      | nil =>
        rw [hc] at h
        simp only [Except.ok.injEq] at h
        refine ⟨by rw [← h]; simp [edgeChildren, hs, hc], ?_⟩
        simp [LocallyAmbiguous, hs, hc, ParseNodeShape.isSplit]
      | cons b l' => rw [hc] at h; simp at h

theorem stepChildren_error {f : Forest n} {x : Fin n} {e : MoreThanOne}
    (hwf : WellFormed f) (h : stepChildren f x = .error e) :
    LocallyAmbiguous f x := by
  unfold stepChildren at h
  cases hs : f.shape x <;> rw [hs] at h
  case Opaque => simp at h
  case Alias k => simp at h
  case Opt k => cases ho : f.optChild x <;> rw [ho] at h <;> simp at h
  case Choice =>
    unfold Forest.one_choice at h
    cases hc : f.choices x with
    | nil => exact absurd hc (hwf.1 x hs)
    | cons a l =>
      cases l with
      | nil => rw [hc] at h; simp at h
      | cons b l' =>
        exact Or.inl ⟨hs, by simp [hc]⟩
  case Split k₁ k₂ =>
    unfold Forest.one_split at h
    cases hc : f.splits x with
    | nil => exact absurd hc (hwf.2 x (by simp [hs, ParseNodeShape.isSplit]))
    | cons a l =>
      cases l with
      | nil => rw [hc] at h; simp at h
      | cons b l' =>
        exact Or.inr ⟨by simp [hs, ParseNodeShape.isSplit], by simp [hc]⟩

theorem check_loop_nil (f : Forest n) (seen : Finset (Fin n)) :
    check_loop f [] seen = (.ok (), 0) := by
  simp [check_loop]

theorem check_loop_cons_error {f : Forest n} {source : Fin n}
    {e : MoreThanOne} (rest : List (Fin n)) (seen : Finset (Fin n))
    (h : stepChildren f source = .error e) :
    check_loop f (source :: rest) seen = (.error e, 1) := by
  simp [check_loop, h]

theorem check_loop_cons_ok {f : Forest n} {source : Fin n}
    {children : List (Fin n)} (rest : List (Fin n)) (seen : Finset (Fin n))
    (h : stepChildren f source = .ok children) :
    check_loop f (source :: rest) seen =
      ((check_loop f (add_children children rest seen).1
          (add_children children rest seen).2).1,
       (check_loop f (add_children children rest seen).1
          (add_children children rest seen).2).2 + 1) := by
  simp [check_loop, h]

theorem stepChildren_error_of_ambiguous {f : Forest n} {x : Fin n}
    (h : LocallyAmbiguous f x) : stepChildren f x = .error .mk := by
  unfold stepChildren
  rcases h with ⟨hs, hlen⟩ | ⟨hs, hlen⟩
  · rw [hs]
    unfold Forest.one_choice
    cases hc : f.choices x with
    | nil => simp [hc] at hlen
    | cons a l =>
      cases l with
      | nil => simp [hc] at hlen
      | cons b l' => rfl
  · cases hshape : f.shape x <;>
      simp [hshape, ParseNodeShape.isSplit] at hs
    cases hc : f.splits x with
    | nil => simp [hc] at hlen
    | cons a l =>
      cases l with
      | nil => simp [hc] at hlen
      | cons b l' => simp [Forest.one_split, hc]

/-! ## The master invariants of the queue loop -/

theorem check_loop_ok_closed (f : Forest n) :
    ∀ (queue : List (Fin n)) (seen : Finset (Fin n)),
      (check_loop f queue seen).1 = .ok () →
      (∀ x ∈ queue, x ∈ seen) →
      (∀ x ∈ seen, x ∉ queue →
        ¬ LocallyAmbiguous f x ∧ ∀ y, Edge f x y → y ∈ seen) →
      ∃ S : Finset (Fin n), seen ⊆ S ∧
        ∀ x ∈ S, ¬ LocallyAmbiguous f x ∧ ∀ y, Edge f x y → y ∈ S := by
  intro queue seen
  induction queue, seen using check_loop.induct f with
  | case1 seen =>
    intro _ _ hproc
    exact ⟨seen, Finset.Subset.refl seen,
      fun x hx => hproc x hx (List.not_mem_nil x)⟩
  | case2 seen c cs e heq =>
    intro hok _ _
    rw [check_loop_cons_error cs seen heq] at hok
    cases hok
  | case3 seen c cs children heq hcard hle ih =>
    intro hok hqs hproc
    rw [check_loop_cons_ok cs seen heq] at hok
    obtain ⟨hch, hamb⟩ := stepChildren_ok heq
    have hqs' : ∀ x ∈ (add_children children cs seen).1,
        x ∈ (add_children children cs seen).2 := by
      intro x hx
      rcases add_children_queue_sub x hx with h' | h'
      · exact add_children_seen_mono (hqs x (List.mem_cons_of_mem c h'))
      · exact add_children_children_seen x h'
    have hproc' : ∀ x ∈ (add_children children cs seen).2,
        x ∉ (add_children children cs seen).1 →
        ¬ LocallyAmbiguous f x ∧
          ∀ y, Edge f x y → y ∈ (add_children children cs seen).2 := by
      intro x hx hnx
      by_cases hxseen : x ∈ seen
      · by_cases hxc : x = c
        · subst hxc
          refine ⟨hamb, fun y hy => ?_⟩
          have : y ∈ children := by rw [hch]; exact hy
          exact add_children_children_seen y this
        · have hxq : x ∉ c :: cs := by
            intro hmem
            rcases List.mem_cons.mp hmem with h' | h'
            · exact hxc h'
            · exact hnx (add_children_queue_mono x h')
          obtain ⟨h1, h2⟩ := hproc x hxseen hxq
          exact ⟨h1, fun y hy => add_children_seen_mono (h2 y hy)⟩
      · rcases add_children_seen_sub x hx with h' | h'
        · exact absurd h' hxseen
        · rcases add_children_enqueued_or_seen x h' with h'' | h''
          · exact absurd h'' hnx
          · exact absurd h'' hxseen
    obtain ⟨S, hsub, hS⟩ := ih hok hqs' hproc'
    exact ⟨S, fun x hx => hsub (add_children_seen_mono hx), hS⟩

theorem check_loop_error_reach (f : Forest n) (hwf : WellFormed f)
    (root : Fin n) :
    ∀ (queue : List (Fin n)) (seen : Finset (Fin n)) {e : MoreThanOne},
      (check_loop f queue seen).1 = .error e →
      (∀ x ∈ queue, x ∈ seen) →
      (∀ x ∈ seen, Reach f root x) →
      ∃ x, Reach f root x ∧ LocallyAmbiguous f x := by
  intro queue seen
  induction queue, seen using check_loop.induct f with
  | case1 seen =>
    intro e herr _ _
    rw [check_loop_nil] at herr
    cases herr
  | case2 seen c cs e heq =>
    intro e' _ hqs hreach
    exact ⟨c, hreach c (hqs c (List.mem_cons_self c cs)),
      stepChildren_error hwf heq⟩
  | case3 seen c cs children heq hcard hle ih =>
    intro e herr hqs hreach
    rw [check_loop_cons_ok cs seen heq] at herr
    obtain ⟨hch, _⟩ := stepChildren_ok heq
    have hqs' : ∀ x ∈ (add_children children cs seen).1,
        x ∈ (add_children children cs seen).2 := by
      intro x hx
      rcases add_children_queue_sub x hx with h' | h'
      · exact add_children_seen_mono (hqs x (List.mem_cons_of_mem c h'))
      · exact add_children_children_seen x h'
    have hreach' : ∀ x ∈ (add_children children cs seen).2,
        Reach f root x := by
      intro x hx
      rcases add_children_seen_sub x hx with h' | h'
      · exact hreach x h'
      · have hedge : Edge f c x := by
          unfold Edge
          rw [← hch]
          exact h'
        exact Relation.ReflTransGen.tail
          (hreach c (hqs c (List.mem_cons_self c cs))) hedge
    exact ih herr hqs' hreach'

theorem closed_no_ambiguous {f : Forest n} {S : Finset (Fin n)}
    (hS : ∀ x ∈ S, ¬ LocallyAmbiguous f x ∧ ∀ y, Edge f x y → y ∈ S)
    {x y : Fin n} (hx : x ∈ S) (hr : Reach f x y) :
    y ∈ S ∧ ¬ LocallyAmbiguous f y := by
  induction hr with
  | refl => exact ⟨hx, (hS x hx).1⟩
  | tail h1 h2 ih =>
    have hb := ih.1
    have hc := (hS _ hb).2 _ h2
    exact ⟨hc, (hS _ hc).1⟩

theorem except_dichotomy (r : Except MoreThanOne Unit) :
    r = .ok () ∨ r = .error .mk := by
  cases r with
  | ok a => cases a; exact Or.inl rfl
  | error e => cases e; exact Or.inr rfl

theorem check_loop_steps_le (f : Forest n) (S : Finset (Fin n))
    (hclosed : ∀ x ∈ S, ∀ y, Edge f x y → y ∈ S) :
    ∀ (queue : List (Fin n)) (seen : Finset (Fin n)),
      (∀ x ∈ queue, x ∈ seen) →
      seen ⊆ S →
      (check_loop f queue seen).2 ≤ (S.card - seen.card) + queue.length := by
  intro queue seen
  induction queue, seen using check_loop.induct f with
  | case1 seen =>
    intro _ _
    rw [check_loop_nil]
    omega
  | case2 seen c cs e heq =>
    intro _ _
    rw [check_loop_cons_error cs seen heq]
    simp only [List.length_cons]
    omega
  | case3 seen c cs children heq hcard hle ih =>
    intro hqs hsub
    rw [check_loop_cons_ok cs seen heq]
    obtain ⟨hch, _⟩ := stepChildren_ok heq
    have hqs' : ∀ x ∈ (add_children children cs seen).1,
        x ∈ (add_children children cs seen).2 := by
      intro x hx
      rcases add_children_queue_sub x hx with h' | h'
      · exact add_children_seen_mono (hqs x (List.mem_cons_of_mem c h'))
      · exact add_children_children_seen x h'
    have hsub' : (add_children children cs seen).2 ⊆ S := by
      intro x hx
      rcases add_children_seen_sub x hx with h' | h'
      · exact hsub h'
      · have hedge : Edge f c x := by
          unfold Edge
          rw [← hch]
          exact h'
        exact hclosed c (hsub (hqs c (List.mem_cons_self c cs))) x hedge
    have hbound := ih hqs' hsub'
    have hcardS : (add_children children cs seen).2.card ≤ S.card :=
      Finset.card_le_card hsub'
    have hcardseen : seen.card ≤ (add_children children cs seen).2.card :=
      Finset.card_le_card add_children_seen_mono
    simp only [List.length_cons]
    omega

/-! ## Traversal of the chain forest -/

theorem chainForest_shape_choice (m : Nat) (i : Fin (m + 2))
    (h : i.val = m + 1) : (chainForest m).shape i = .Choice := by
  simp only [chainForest]
  rw [if_neg (by omega)]

theorem chainForest_ambiguous_top (m : Nat) (i : Fin (m + 2))
    (h : i.val = m + 1) : LocallyAmbiguous (chainForest m) i :=
  Or.inl ⟨chainForest_shape_choice m i h, by simp [chainForest]⟩

theorem chain_loop (m : Nat) :
    ∀ (k : Nat) (i : Fin (m + 2)) (seen : Finset (Fin (m + 2))),
      i.val + k = m + 1 →
      (∀ j ∈ seen, j.val ≤ i.val) →
      (check_loop (chainForest m) [i] seen).1 = .error .mk := by
  intro k
  induction k with
  | zero =>
    intro i seen hk hseen
    rw [check_loop_cons_error [] seen (stepChildren_error_of_ambiguous
      (chainForest_ambiguous_top m i (by omega)))]
  | succ k ih =>
    intro i seen hk hseen
    have hlt : i.val < m + 1 := by omega
    have hs : (chainForest m).shape i = .Alias 0 := by
      simp only [chainForest]
      rw [if_pos hlt]
    have hchildeq : (chainForest m).aliasChild i = ⟨i.val + 1, by omega⟩ := by
      simp only [chainForest, Fin.ext_iff]
      omega
    have hstep : stepChildren (chainForest m) i = .ok [⟨i.val + 1, by omega⟩] := by
      unfold stepChildren
      rw [hs, hchildeq]
    rw [check_loop_cons_ok [] seen hstep]
    have hnotin : (⟨i.val + 1, by omega⟩ : Fin (m + 2)) ∉ seen := by
      intro hmem
      have := hseen _ hmem
      simp at this
    have hadd : add_children [(⟨i.val + 1, by omega⟩ : Fin (m + 2))] [] seen
        = ([⟨i.val + 1, by omega⟩], insert ⟨i.val + 1, by omega⟩ seen) := by
      simp [add_children, hnotin]
    rw [hadd]
    apply ih ⟨i.val + 1, by omega⟩ (insert ⟨i.val + 1, by omega⟩ seen)
      (by show i.val + 1 + k = m + 1; omega)
    intro j hj
    rcases Finset.mem_insert.mp hj with rfl | hjs
    · exact Nat.le_refl _
    · exact Nat.le_trans (hseen j hjs) (Nat.le_succ _)

/-! ## The claims about `ambiguity_check` -/

/-- C1: for every well-formed forest and root node, `ambiguity_check`
returns `Ok(())` iff no node reachable from the root through
shape-defined children is locally ambiguous, and `Err(MoreThanOne)` iff
some reachable node is a `Choice` with more than one alternative or a
`Split` with more than one split. -/
theorem ambiguity_check_correct (f : Forest n) (root : Fin n)
    (hwf : WellFormed f) :
    (ambiguity_check f root = .ok () ↔
      ∀ x, Reach f root x → ¬ LocallyAmbiguous f x) ∧
    (ambiguity_check f root = .error .mk ↔
      ∃ x, Reach f root x ∧ LocallyAmbiguous f x) := by
  have hqs : ∀ x ∈ [root], x ∈ ({root} : Finset (Fin n)) := by simp
  have hreach0 : ∀ x ∈ ({root} : Finset (Fin n)), Reach f root x := by
    intro x hx
    rw [Finset.mem_singleton] at hx
    subst hx
    exact Relation.ReflTransGen.refl
  have hfwd : ambiguity_check f root = .ok () →
      ∀ x, Reach f root x → ¬ LocallyAmbiguous f x := by
    intro hok x hx
    obtain ⟨S, hsub, hS⟩ := check_loop_ok_closed f [root] {root} hok hqs
      (by
        intro x hx hnx
        rw [Finset.mem_singleton] at hx
        subst hx
        exact absurd (List.mem_singleton.mpr rfl) hnx)
    exact (closed_no_ambiguous hS (hsub (Finset.mem_singleton_self root)) hx).2
  have herr : ambiguity_check f root = .error .mk →
      ∃ x, Reach f root x ∧ LocallyAmbiguous f x := by
    intro h
    exact check_loop_error_reach f hwf root [root] {root} h hqs hreach0
  constructor
  · constructor
    · exact hfwd
    · intro hno
      rcases except_dichotomy (ambiguity_check f root) with h | h
      · exact h
      · obtain ⟨x, hrx, hax⟩ := herr h
        exact absurd hax (hno x hrx)
  · constructor
    · exact herr
    · rintro ⟨x, hrx, hax⟩
      rcases except_dichotomy (ambiguity_check f root) with h | h
      · exact absurd hax (hfwd h x hrx)
      · exact h

theorem ambiguity_check_correct_witness :
    WellFormed aliasLeafForest ∧
      ((ambiguity_check aliasLeafForest 0 = .ok () ↔
        ∀ x, Reach aliasLeafForest 0 x →
          ¬ LocallyAmbiguous aliasLeafForest x) ∧
      (ambiguity_check aliasLeafForest 0 = .error .mk ↔
        ∃ x, Reach aliasLeafForest 0 x ∧ LocallyAmbiguous aliasLeafForest x)) :=
  ⟨by decide, ambiguity_check_correct aliasLeafForest 0 (by decide)⟩

/-- C2: dequeuing a locally ambiguous node makes the loop return
`Err(MoreThanOne)` at once, whatever still sits in the queue and the
visited set, after inspecting only that one node; and the ambiguity at
the end of a chain of `m + 1` unambiguous alias nodes is still detected,
for every `m` (in particular `m = 1000`). -/
theorem ambiguity_check_short_circuit (f : Forest n) (source : Fin n)
    (rest : List (Fin n)) (seen : Finset (Fin n))
    (h : LocallyAmbiguous f source) :
    check_loop f (source :: rest) seen = (.error .mk, 1) ∧
    ∀ m : Nat,
      ambiguity_check (chainForest m) ⟨0, by omega⟩ = .error .mk := by
  constructor
  · exact check_loop_cons_error rest seen (stepChildren_error_of_ambiguous h)
  · intro m
    unfold ambiguity_check
    refine chain_loop m (m + 1) ⟨0, by omega⟩ {⟨0, by omega⟩} ?_ ?_
    · show 0 + (m + 1) = m + 1
      omega
    · intro j hj
      rw [Finset.mem_singleton] at hj
      subst hj
      exact Nat.le_refl _

theorem ambiguity_check_short_circuit_witness :
    LocallyAmbiguous splitAmbForest 0 ∧
      (check_loop splitAmbForest [(0 : Fin 1)] ∅ = (.error .mk, 1) ∧
      ∀ m : Nat,
        ambiguity_check (chainForest m) ⟨0, by omega⟩ = .error .mk) :=
  ⟨by decide, ambiguity_check_short_circuit splitAmbForest 0 [] ∅ (by decide)⟩

/-- C8: during one call of `ambiguity_check` the traversal dequeues and
inspects at most as many nodes as any set of nodes that contains the
root and is closed under shape-defined children — in particular at most
the number of distinct reachable nodes, however many derivations the
forest encodes. -/
theorem ambiguity_check_steps_bound (f : Forest n) (root : Fin n)
    (S : Finset (Fin n)) (hroot : root ∈ S)
    (hclosed : ∀ x ∈ S, ∀ y, Edge f x y → y ∈ S) :
    ambiguity_steps f root ≤ S.card := by
  have h := check_loop_steps_le f S hclosed [root] {root} (by simp)
    (by
      intro x hx
      rw [Finset.mem_singleton] at hx
      subst hx
      exact hroot)
  have hcard : 1 ≤ S.card := Finset.card_pos.mpr ⟨root, hroot⟩
  unfold ambiguity_steps
  simp only [List.length_cons, List.length_nil, Finset.card_singleton] at h
  omega

theorem ambiguity_check_steps_bound_witness :
    (0 : Fin 2) ∈ (Finset.univ : Finset (Fin 2)) ∧
      (∀ x ∈ (Finset.univ : Finset (Fin 2)), ∀ y,
        Edge aliasLeafForest x y → y ∈ (Finset.univ : Finset (Fin 2))) ∧
      ambiguity_steps aliasLeafForest 0 ≤ (Finset.univ : Finset (Fin 2)).card :=
  ⟨by decide, by decide,
    ambiguity_check_steps_bound aliasLeafForest 0 Finset.univ (by decide)
      (by decide)⟩

/-- C9: the loop is a total function — the embedding's `check_loop` is
accepted by well-founded recursion on `(n - seen.card) + queue.length` —
an exhausted queue yields `Ok(())` with no further node inspected, and
every run ends in `Ok(())` or `Err(MoreThanOne)`. -/
theorem ambiguity_check_terminates (f : Forest n) (root : Fin n) :
    (∀ seen : Finset (Fin n), check_loop f [] seen = (.ok (), 0)) ∧
      (ambiguity_check f root = .ok () ∨
        ambiguity_check f root = .error .mk) :=
  ⟨fun seen => check_loop_nil f seen, except_dichotomy _⟩

/-! ## Counter bookkeeping of directory mode -/

theorem processFile_counts (c : Counters) (r : ParseResult) :
    (processFile c r).1.total = c.total + 1 ∧
    (processFile c r).1.unambiguous + (processFile c r).1.ambiguous
        + (processFile c r).1.too_short + (processFile c r).1.no_parse
      = c.unambiguous + c.ambiguous + c.too_short + c.no_parse + 1 := by
  cases r with
  | ok h =>
    cases hres : ambiguity_check h.forest h.root <;>
      simp [processFile, hres] <;> omega
  | tooShort h => simp [processFile]; omega
  | noParse => simp [processFile]; omega

theorem runDir_counts (v : Bool) (files : List ParseResult) :
    ∀ c : Counters,
      (runDir v c files).1.total = c.total + files.length ∧
      (runDir v c files).1.unambiguous + (runDir v c files).1.ambiguous
          + (runDir v c files).1.too_short + (runDir v c files).1.no_parse
        = c.unambiguous + c.ambiguous + c.too_short + c.no_parse
            + files.length := by
  induction files with
  | nil => intro c; simp [runDir]
  | cons r rs ih =>
    intro c
    have h1 := processFile_counts c r
    have h2 := ih (processFile c r).1
    simp only [runDir, List.length_cons]
    omega

/-- C3: every processed file increments exactly one of the four category
counters and the running total, so after a batch of `K` files the four
counters sum to the total, which is `K`. -/
theorem dir_category_completeness (v : Bool) :
    (∀ (c : Counters) (r : ParseResult),
      (processFile c r).1.total = c.total + 1 ∧
      (processFile c r).1.unambiguous + (processFile c r).1.ambiguous
          + (processFile c r).1.too_short + (processFile c r).1.no_parse
        = c.unambiguous + c.ambiguous + c.too_short + c.no_parse + 1) ∧
    ∀ files : List ParseResult,
      (runDir v initCounters files).1.total = files.length ∧
      (runDir v initCounters files).1.unambiguous
          + (runDir v initCounters files).1.ambiguous
          + (runDir v initCounters files).1.too_short
          + (runDir v initCounters files).1.no_parse = files.length := by
  refine ⟨processFile_counts, fun files => ?_⟩
  have h := runDir_counts v files initCounters
  have e1 : initCounters.total = 0 := rfl
  have e2 : initCounters.unambiguous = 0 := rfl
  have e3 : initCounters.ambiguous = 0 := rfl
  have e4 : initCounters.too_short = 0 := rfl
  have e5 : initCounters.no_parse = 0 := rfl
  omega

/-- C4: the outcome classification and status character per parse result:
full success with `ambiguity_check` `Ok` bumps the unambiguous counter
and prints `~`; full success with `Err` bumps the ambiguous counter and
prints `!`; a too-short parse bumps the too-short counter and prints
`.`; no parse bumps the no-parse counter and prints `X`. -/
theorem processFile_classification (h : Handle) (c : Counters) :
    (ambiguity_check h.forest h.root = .ok () →
      processFile c (.ok h) =
        ({ c with unambiguous := c.unambiguous + 1, total := c.total + 1 },
          '~')) ∧
    (ambiguity_check h.forest h.root = .error .mk →
      processFile c (.ok h) =
        ({ c with ambiguous := c.ambiguous + 1, total := c.total + 1 },
          '!')) ∧
    processFile c (.tooShort h) =
      ({ c with too_short := c.too_short + 1, total := c.total + 1 }, '.') ∧
    processFile c .noParse =
      ({ c with no_parse := c.no_parse + 1, total := c.total + 1 }, 'X') := by
  refine ⟨?_, ?_, rfl, rfl⟩
  · intro hres
    simp [processFile, hres]
  · intro hres
    simp [processFile, hres]

theorem processFile_classification_witness :
    ambiguity_check aliasLeafForest 0 = .ok () ∧
      processFile initCounters (.ok ⟨2, aliasLeafForest, 0⟩) =
        ({ initCounters with unambiguous := 1, total := 1 }, '~') := by
  have hok : ambiguity_check aliasLeafForest 0 = .ok () := by
    simp [ambiguity_check, check_loop, stepChildren, aliasLeafForest,
      Forest.one_choice, add_children]
  exact ⟨hok,
    (processFile_classification ⟨2, aliasLeafForest, 0⟩ initCounters).1 hok⟩

/-- C7: when tokenization fails, `parse_file_with` hands its continuation
exactly `Err(ParseError::NoParse)`, and directory mode classifies that
like an outright parse failure: the no-parse counter and `X`. -/
theorem parse_file_with_lex_error {T R : Type} (e : LexError)
    (parseWith : T → ParseResult) (f : ParseResult → R) (c : Counters) :
    parse_file_with (.error e) parseWith f = f ParseResult.noParse ∧
    processFile c ParseResult.noParse =
      ({ c with no_parse := c.no_parse + 1, total := c.total + 1 }, 'X') :=
  ⟨rfl, rfl⟩

/-- C10: the directory walk processes exactly the entries whose file-name
extension is `rs`; an extensionless name, a name with another extension,
or a bare `.rs` (a hidden file with no extension) is skipped. -/
theorem keepEntry_rs_only :
    (∀ name : String, keepEntry name = true ↔ extension name = some "rs") ∧
    keepEntry "main.rs" = true ∧
    keepEntry "Makefile" = false ∧
    keepEntry "src" = false ∧
    keepEntry "lib.rs.bak" = false ∧
    keepEntry ".rs" = false ∧
    keepEntry "a.b.rs" = true := by
  refine ⟨fun name => ?_, by decide, by decide, by decide, by decide,
    by decide, by decide⟩
  unfold keepEntry
  cases h : extension name with
  | none => simp
  | some ext => simp

/-! ## The compact progress stream's line structure -/

theorem processFile_status_ne_newline (c : Counters) (r : ParseResult) :
    (processFile c r).2 ≠ '\n' := by
  cases r with
  | ok h =>
    cases hres : ambiguity_check h.forest h.root <;> simp [processFile, hres]
  | tooShort h => simp [processFile]
  | noParse => simp [processFile]

/-- Prepending one non-newline character lengthens the current first
line (an empty stream still has one empty line). -/
def bumpHead (l : List Nat) : List Nat :=
  match l with
  | [] => [1]
  | a :: as => (a + 1) :: as

/-- The line lengths the loop produces for `k` files when the running
total starts at `t`: a newline break comes right before the status
character that makes the total a multiple of 80. -/
def expectedLines : Nat → Nat → List Nat
  | _, 0 => [0]
  | t, k + 1 =>
    if (t + 1) % 80 = 0 then 0 :: bumpHead (expectedLines (t + 1) k)
    else bumpHead (expectedLines (t + 1) k)

theorem lineLengths_nil : lineLengths [] = [0] := by
  simp [lineLengths, List.splitOn_nil]

theorem lineLengths_cons (ch : Char) (xs : List Char) :
    lineLengths (ch :: xs) =
      if ch = '\n' then 0 :: lineLengths xs
      else bumpHead (lineLengths xs) := by
  by_cases h : ch = '\n'
  · simp [lineLengths, List.splitOn, List.splitOnP_cons, h]
  · cases hS : xs.splitOnP (· == '\n') with
    | nil => exact absurd hS (List.splitOnP_ne_nil _ xs)
    | cons s0 S =>
      simp [lineLengths, List.splitOn, List.splitOnP_cons, h, hS, bumpHead]

theorem runDir_lines (files : List ParseResult) :
    ∀ c : Counters,
      lineLengths ((runDir false c files).2)
        = expectedLines c.total files.length := by
  induction files with
  | nil =>
    intro c
    simp [runDir, expectedLines, lineLengths_nil]
  | cons r rs ih =>
    intro c
    have htot : (processFile c r).1.total = c.total + 1 :=
      (processFile_counts c r).1
    have hne : (processFile c r).2 ≠ '\n' := processFile_status_ne_newline c r
    have hrest := ih (processFile c r).1
    rw [htot] at hrest
    simp only [runDir, List.length_cons, expectedLines, Bool.false_eq_true,
      if_false, htot]
    by_cases h80 : (c.total + 1) % 80 = 0
    · simp [h80, lineLengths_cons, hne, hrest]
    · simp [h80, lineLengths_cons, hne, hrest]

theorem expectedLines_bound : ∀ (k t : Nat),
    (∀ l ∈ expectedLines t k, l ≤ 80) ∧
    (∀ h hs, expectedLines t k = h :: hs → h + t % 80 ≤ 79) := by
  intro k
  induction k with
  | zero =>
    intro t
    constructor
    · intro l hl
      simp [expectedLines] at hl
      omega
    · intro h hs he
      simp only [expectedLines, List.cons.injEq] at he
      omega
  | succ k ih =>
    intro t
    obtain ⟨ihall, ihhead⟩ := ih (t + 1)
    have hbump_all : ∀ l ∈ bumpHead (expectedLines (t + 1) k), l ≤ 80 := by
      intro l hl
      cases hE : expectedLines (t + 1) k with
      | nil =>
        rw [hE] at hl
        simp [bumpHead] at hl
        omega
      | cons a as =>
        rw [hE] at hl
        simp only [bumpHead, List.mem_cons] at hl
        rcases hl with rfl | hl
        · have := ihhead a as hE
          omega
        · exact ihall l (by rw [hE]; exact List.mem_cons_of_mem a hl)
    by_cases h80 : (t + 1) % 80 = 0
    · constructor
      · intro l hl
        simp only [expectedLines, if_pos h80, List.mem_cons] at hl
        rcases hl with rfl | hl
        · omega
        · exact hbump_all l hl
      · intro h hs he
        simp only [expectedLines, if_pos h80, List.cons.injEq] at he
        omega
    · constructor
      · intro l hl
        simp only [expectedLines, if_neg h80] at hl
        exact hbump_all l hl
      · intro h hs he
        simp only [expectedLines, if_neg h80] at he
        cases hE : expectedLines (t + 1) k with
        | nil =>
          rw [hE] at he
          simp only [bumpHead, List.cons.injEq] at he
          omega
        | cons a as =>
          rw [hE] at he
          simp only [bumpHead, List.cons.injEq] at he
          have := ihhead a as hE
          omega

/-- C5 counterexample: a batch of 160 files does not produce two full
80-character lines; the newline precedes the character that brings the
total to a multiple of 80, so the lines hold 79, 80 and 1 characters. -/
theorem dir_wrap_counterexample :
    lineLengths ((runDir false initCounters
        (List.replicate 160 ParseResult.noParse)).2) = [79, 80, 1] ∧
    lineLengths ((runDir false initCounters
        (List.replicate 160 ParseResult.noParse)).2) ≠ [80, 80] := by
  have h := runDir_lines (List.replicate 160 ParseResult.noParse) initCounters
  rw [List.length_replicate] at h
  have h0 : initCounters.total = 0 := rfl
  rw [h0] at h
  rw [h]
  constructor
  · decide
  · decide

/-- C5 amended: in non-verbose directory mode no line of the compact
progress stream exceeds 80 status characters and the first line holds at
most 79 (the newline is emitted before the status character that makes
the post-increment total a multiple of 80); a batch of 160 files yields
lines of 79, 80 and 1 characters, not two full 80-character lines. -/
theorem dir_wrap_amended :
    (∀ (files : List ParseResult) (l : Nat),
      l ∈ lineLengths ((runDir false initCounters files).2) → l ≤ 80) ∧
    (∀ (files : List ParseResult) (h : Nat) (hs : List Nat),
      lineLengths ((runDir false initCounters files).2) = h :: hs →
        h ≤ 79) ∧
    lineLengths ((runDir false initCounters
        (List.replicate 160 ParseResult.noParse)).2) = [79, 80, 1] := by
  have h0 : initCounters.total = 0 := rfl
  refine ⟨?_, ?_, ?_⟩
  · intro files l hl
    rw [runDir_lines files initCounters, h0] at hl
    exact (expectedLines_bound files.length 0).1 l hl
  · intro files h hs he
    rw [runDir_lines files initCounters, h0] at he
    have := (expectedLines_bound files.length 0).2 h hs he
    omega
  · have h := runDir_lines (List.replicate 160 ParseResult.noParse)
      initCounters
    rw [List.length_replicate, h0] at h
    rw [h]
    decide

/-! ## Single-file mode versus directory mode -/

/-- C6 counterexample: on a fully successful parse, single-file mode
never performs the ambiguity classification that the per-file procedure
of directory mode performs, so its trace is not the spec's single-file
trace. -/
theorem file_mode_counterexample :
    Event.ambiguityClassify ∉
      fileModeTrace true (ParseResult.ok ⟨2, aliasLeafForest, 0⟩) ∧
    fileModeTrace true (ParseResult.ok ⟨2, aliasLeafForest, 0⟩) ≠
      specSingleFileTrace true (ParseResult.ok ⟨2, aliasLeafForest, 0⟩) := by
  constructor
  · decide
  · decide

/-- C6 amended: single-file mode performs the same read-and-parse step,
always reports the full diagnostic detail, dumps the forest exactly when
an output path was given and the result carries a forest (success or
too-short, never no-parse) — but it never runs the Ambiguity Classifier,
unlike directory mode, which runs it on every fully successful parse. -/
theorem file_mode_behavior (b v : Bool) (c : Counters) (r : ParseResult) :
    Event.readAndParse ∈ fileModeTrace b r ∧
    Event.reportDetail ∈ fileModeTrace b r ∧
    (Event.dumpForest ∈ fileModeTrace b r ↔ b = true ∧ hasForest r = true) ∧
    Event.ambiguityClassify ∉ fileModeTrace b r ∧
    (∀ h : Handle, Event.ambiguityClassify ∈ dirFileTrace v c (.ok h)) := by
  refine ⟨?_, ?_, ?_, ?_, ?_⟩
  · simp [fileModeTrace]
  · simp [fileModeTrace]
  · cases r <;> cases b <;> simp [fileModeTrace, hasForest]
  · cases r <;> cases b <;> simp [fileModeTrace, hasForest]
  · intro h
    simp [dirFileTrace]
